import Mathlib

/-!
# Verification of the acton-ai actor-based agent runtime

Shallow embedding of the acton-ai core data model and operations
(agent state machine, delegation tracker, reasoning loop, provider
streaming, rate limiting, conversation history, mailbox runtime, path
validation), with theorems settling the specification's claims.

The repository ships documentation, API declarations and test snippets;
the Rust implementation bodies are not part of the source tree, so the
operational definitions below are modelled from the specification,
kept consistent with the declarations and tests the docs contain.
-/

namespace ActonAI

/-! ## Agent state machine (spec §3 AgentState, §4.5) -/

/-- The `AgentState` enum: `{Idle, Thinking, Executing, Waiting, Completed,
Stopping}`. -/
inductive AgentState where
  | Idle
  | Thinking
  | Executing
  | Waiting
  | Completed
  | Stopping
deriving DecidableEq, Repr

/-- Modelled from the spec: `AgentState::can_accept_prompt` — prompts are
accepted only from `Idle` or `Completed`. -/
def AgentState.can_accept_prompt : AgentState → Bool
  | .Idle => true
  | .Completed => true
  | _ => false

/-- Modelled from the spec: `AgentState::is_active` — true for the busy
states `Thinking`, `Executing`, `Waiting`. -/
def AgentState.is_active : AgentState → Bool
  | .Thinking => true
  | .Executing => true
  | .Waiting => true
  | _ => false

/-- Modelled from the spec: `AgentState::is_terminal` — true only for
`Stopping`. -/
def AgentState.is_terminal : AgentState → Bool
  | .Stopping => true
  | _ => false

/-- Events driving the agent reasoning-loop state machine (spec §4.5). -/
inductive AgentEvent where
  | promptReceived
  | streamDone
  | streamToolUse
  | toolResultsCollected
  | stopSignal
deriving DecidableEq, Repr

/-- Modelled from the spec: the agent transition function of §4.5.
`Idle --(prompt)--> Thinking`; `Thinking --(stream)--> {Completed | Executing}`;
`Executing --(all tool results collected)--> Thinking`;
`Completed --(prompt)--> Thinking`; any state `--(stop signal)--> Stopping`;
`Stopping` is terminal and rejects all further transitions. -/
def AgentState.step : AgentState → AgentEvent → Option AgentState
  | .Stopping, _ => none
  | _, .stopSignal => some .Stopping
  | .Idle, .promptReceived => some .Thinking
  | .Completed, .promptReceived => some .Thinking
  | .Thinking, .streamDone => some .Completed
  | .Thinking, .streamToolUse => some .Executing
  | .Executing, .toolResultsCollected => some .Thinking
  | _, _ => none

/-! ## Delegated tasks (spec §3 DelegatedTask, §4.7) -/

/-- `DelegatedTaskState`: `{Pending, Accepted, Completed(result),
Failed(reason)}`.  Results are JSON values in the source; the payload is
modelled as a string. -/
inductive DelegatedTaskState where
  | Pending
  | Accepted
  | Completed (result : String)
  | Failed (reason : String)
deriving DecidableEq, Repr

/-- A task state is terminal when it is `Completed` or `Failed`. -/
def DelegatedTaskState.is_terminal : DelegatedTaskState → Bool
  | .Completed _ => true
  | .Failed _ => true
  | _ => false

/-- Position of a state along the monotonic chain
`Pending → Accepted → {Completed | Failed}`. -/
def DelegatedTaskState.rank : DelegatedTaskState → Nat
  | .Pending => 0
  | .Accepted => 1
  | .Completed _ => 2
  | .Failed _ => 2

/-- `DelegatedTask`: `{task_id, counterparty_agent_id, task_type, deadline?,
state}`.  Identifiers are modelled as naturals and the optional deadline as
a duration in milliseconds. -/
structure DelegatedTask where
  task_id : Nat
  counterparty_agent_id : Nat
  task_type : String
  deadline : Option Nat
  state : DelegatedTaskState
deriving DecidableEq, Repr

/-- `DelegatedTask::new` starts a task in the `Pending` state with no
deadline. -/
def DelegatedTask.new (id agent : Nat) (ty : String) : DelegatedTask :=
  { task_id := id, counterparty_agent_id := agent, task_type := ty,
    deadline := none, state := .Pending }

/-- Modelled from the spec: `accept()` moves `Pending → Accepted`; on any
other state it is a no-op returning `false`. -/
def DelegatedTask.accept (t : DelegatedTask) : DelegatedTask × Bool :=
  match t.state with
  | .Pending => ({ t with state := .Accepted }, true)
  | _ => (t, false)

/-- Modelled from the spec: `complete(result)` moves a non-terminal task to
`Completed(result)` (the docs' tests complete a task directly from
`Pending`); on a terminal task it is a no-op returning `false`. -/
def DelegatedTask.complete (t : DelegatedTask) (result : String) :
    DelegatedTask × Bool :=
  match t.state with
  | .Pending => ({ t with state := .Completed result }, true)
  | .Accepted => ({ t with state := .Completed result }, true)
  | _ => (t, false)

/-- Modelled from the spec: `fail(reason)` moves a non-terminal task to
`Failed(reason)`; on a terminal task it is a no-op returning `false`. -/
def DelegatedTask.fail (t : DelegatedTask) (reason : String) :
    DelegatedTask × Bool :=
  match t.state with
  | .Pending => ({ t with state := .Failed reason }, true)
  | .Accepted => ({ t with state := .Failed reason }, true)
  | _ => (t, false)

/-- One `accept()` / `complete()` / `fail()` call. -/
inductive TaskCall where
  | acceptCall
  | completeCall (result : String)
  | failCall (reason : String)
deriving DecidableEq, Repr

/-- Dispatch one call to a task. -/
def DelegatedTask.applyCall (t : DelegatedTask) : TaskCall → DelegatedTask × Bool
  | .acceptCall => t.accept
  | .completeCall r => t.complete r
  | .failCall r => t.fail r

/-- Apply a whole sequence of calls, discarding the returned booleans. -/
def DelegatedTask.applySeq (t : DelegatedTask) : List TaskCall → DelegatedTask
  | [] => t
  | c :: cs => ((t.applyCall c).1).applySeq cs

/-! ## Delegation tracker (spec §4.7) -/

/-- An incoming delegation record: who delegated it and its state. -/
structure IncomingTask where
  task_id : Nat
  from_agent : Nat
  task_type : String
  state : DelegatedTaskState
deriving DecidableEq, Repr

/-- `DelegationTracker`: records outgoing and incoming task handoffs.  The
maps keyed by `TaskId` are modelled as association lists. -/
structure DelegationTracker where
  outgoing : List DelegatedTask
  incoming : List IncomingTask
deriving DecidableEq, Repr

/-- `DelegationTracker::new` starts empty. -/
def DelegationTracker.new : DelegationTracker := ⟨[], []⟩

/-- `track_outgoing(task)` inserts the task (as built, i.e. `Pending`). -/
def DelegationTracker.track_outgoing (tr : DelegationTracker)
    (t : DelegatedTask) : DelegationTracker :=
  { tr with outgoing := tr.outgoing ++ [t] }

/-- `get_outgoing(&task_id)` looks an outgoing task up by id. -/
def DelegationTracker.get_outgoing (tr : DelegationTracker) (id : Nat) :
    Option DelegatedTask :=
  tr.outgoing.find? (fun t => t.task_id = id)

/-- Modelled from the spec: `cleanup_completed()` removes only tasks in a
terminal state, never `Pending`/`Accepted`. -/
def DelegationTracker.cleanup_completed (tr : DelegationTracker) :
    DelegationTracker :=
  { outgoing := tr.outgoing.filter (fun t => !t.state.is_terminal),
    incoming := tr.incoming.filter (fun t => !t.state.is_terminal) }

/-! ## Reasoning loop and tool rounds (spec §4.5, `PromptBuilder::max_tool_rounds`) -/

/-- Stop reasons for a provider stream: `EndTurn`, `MaxTokens`,
`StopSequence`, `ToolUse` (spec §4.3). -/
inductive StopReason where
  | EndTurn
  | MaxTokens
  | StopSequence
  | ToolUse
deriving DecidableEq, Repr

/-- One requested tool call: name plus JSON arguments (modelled as a
string). -/
structure ToolCall where
  name : String
  arguments : String
deriving DecidableEq, Repr

/-- One model turn: the assistant text, the tool calls it requested, and the
stop reason ending the turn. -/
structure ModelTurn where
  text : String
  toolCalls : List ToolCall
  stop : StopReason
deriving DecidableEq, Repr

/-- Outcome of `collect()`: the number of tool rounds used and either the
final text or an error message. -/
structure LoopResult where
  rounds : Nat
  outcome : Except String String
deriving Repr

/-- The error `collect()` returns when the tool round limit is exceeded. -/
def toolRoundLimitError : String := "tool round limit exceeded"

/-- Modelled from the spec: the body of the `collect()` reasoning loop.
`turns i` is the model's response to the `i`-th submission; `roundsDone`
counts `Executing → Thinking` resubmissions so far and `remaining` is
`max_tool_rounds - roundsDone`.  A turn whose stop reason is not `ToolUse`
ends the loop; a `ToolUse` turn executes tools and resubmits, incrementing
the round counter, unless the counter would exceed the maximum, in which
case the loop aborts with the "tool round limit exceeded" error. -/
def collectGo (turns : Nat → ModelTurn) : Nat → Nat → LoopResult
  | remaining, roundsDone =>
    let t := turns roundsDone
    if t.stop = .ToolUse then
      match remaining with
      | 0 => { rounds := roundsDone, outcome := .error toolRoundLimitError }
      | r + 1 => collectGo turns r (roundsDone + 1)
    else
      { rounds := roundsDone, outcome := .ok t.text }

/-- Modelled from the spec: `PromptBuilder::collect()` with a configured
`max_tool_rounds` (default 10). -/
def collectLoop (turns : Nat → ModelTurn) (max_tool_rounds : Nat) : LoopResult :=
  collectGo turns max_tool_rounds 0

/-- The default for `max_tool_rounds` is 10 rounds. -/
def defaultMaxToolRounds : Nat := 10

/-! ## Provider streaming events (spec §4.3, broadcast-based streaming) -/

/-- A chunk yielded by the external `LLMClient::send_streaming_request`
before the terminating `End(stop_reason)` (spec §6). -/
inductive ClientChunk where
  | Token (text : String)
  | ToolCallRequest (name : String) (arguments : String)
deriving DecidableEq, Repr

/-- Streaming events published to the Broker, each tagged with the
request's `CorrelationId` (modelled as a natural). -/
inductive StreamEvent where
  | StreamStart (cid : Nat)
  | StreamToken (cid : Nat) (text : String)
  | StreamToolCall (cid : Nat) (name : String) (arguments : String)
  | StreamEnd (cid : Nat) (stop : StopReason)
deriving DecidableEq, Repr

/-- The correlation id carried by a stream event. -/
def StreamEvent.cid : StreamEvent → Nat
  | .StreamStart c => c
  | .StreamToken c _ => c
  | .StreamToolCall c _ _ => c
  | .StreamEnd c _ => c

/-- Recognizer for `StreamStart`. -/
def StreamEvent.isStart : StreamEvent → Bool
  | .StreamStart _ => true
  | _ => false

/-- Recognizer for `StreamEnd`. -/
def StreamEvent.isEnd : StreamEvent → Bool
  | .StreamEnd _ _ => true
  | _ => false

/-- Recognizer for `StreamToolCall`. -/
def StreamEvent.isToolCall : StreamEvent → Bool
  | .StreamToolCall _ _ _ => true
  | _ => false

/-- Modelled from the spec: translation of the body chunks of a client
stream into broadcast events, followed by the single `StreamEnd`. -/
def streamBody (cid : Nat) (stop : StopReason) : List ClientChunk → List StreamEvent
  | [] => [.StreamEnd cid stop]
  | .Token t :: rest => .StreamToken cid t :: streamBody cid stop rest
  | .ToolCallRequest n a :: rest =>
      .StreamToolCall cid n a :: streamBody cid stop rest

/-- Modelled from the spec: the spawned network task publishes, in order,
exactly one `StreamStart`, the translated body chunks, then exactly one
`StreamEnd(stop_reason)`, all tagged with the request's correlation id. -/
def streamTask (cid : Nat) (body : List ClientChunk) (stop : StopReason) :
    List StreamEvent :=
  .StreamStart cid :: streamBody cid stop body

/-! ## Conversation history (spec §3 Conversation History, §5;
`Conversation::send`) -/

/-- One history entry: `Message{role, content}`. -/
structure ChatMessage where
  role : String
  content : String
deriving DecidableEq, Repr

/-- The state owned by the `ConversationActor`: the ordered history,
mutated only by appending. -/
structure ConversationState where
  history : List ChatMessage
deriving DecidableEq, Repr

/-- Modelled from the spec: one `send()` call — append the user message,
send the full history to the LLM, append the assistant's response, return
it.  `llm` maps the submitted history to the assistant reply. -/
def sendStep (llm : List ChatMessage → String) (st : ConversationState)
    (content : String) : ConversationState × String :=
  let withUser := st.history ++ [⟨"user", content⟩]
  let reply := llm withUser
  (⟨withUser ++ [⟨"assistant", reply⟩]⟩, reply)

/-- Modelled from the spec: the conversation actor's mailbox serializes
`send()` calls, so a queue of pending sends is processed strictly one after
another, in order. -/
def processSends (llm : List ChatMessage → String) :
    ConversationState → List String → ConversationState
  | st, [] => st
  | st, c :: cs => processSends llm (sendStep llm st c).1 cs

/-! ## Rate limiting (spec §3 RateLimiter state, §4.3; `RateLimitConfig`) -/

/-- `RateLimitConfig::new(requests_per_min, tokens_per_min)` with
`with_max_queue_size` and `without_queueing`. -/
structure RateLimitConfig where
  requests_per_min : Nat
  tokens_per_min : Nat
  queue_when_limited : Bool
  max_queue_size : Nat
deriving DecidableEq, Repr

/-- A provider request as the rate limiter sees it: correlation id and
estimated token cost. -/
structure RLRequest where
  cid : Nat
  tokens : Nat
deriving DecidableEq, Repr

/-- Per-provider rate limiter state: fixed-window counters and the bounded
FIFO wait queue, mutated only inside the Provider's mailbox handler. -/
structure RateLimiterState where
  used_requests : Nat
  used_tokens : Nat
  queue : List RLRequest
deriving DecidableEq, Repr

/-- The decision the rate limiter takes on a submitted request. -/
inductive RateLimitDecision where
  | Proceed
  | Queued
  | RateLimited (retry_after : Nat)
deriving DecidableEq, Repr

/-- A request is within budget when both window counters stay within the
configured per-minute limits. -/
def withinBudget (cfg : RateLimitConfig) (st : RateLimiterState)
    (req : RLRequest) : Bool :=
  st.used_requests + 1 ≤ cfg.requests_per_min &&
    st.used_tokens + req.tokens ≤ cfg.tokens_per_min

/-- Modelled from the spec: on receipt the Provider checks the rate
limiter — if within budget, proceeds; if exceeded and queueing is enabled
and the bounded FIFO wait queue has room, holds the request; otherwise it
fails immediately with a rate-limit error carrying a retry-after duration
(the time until the window resets, in milliseconds). -/
def rateLimitSubmit (cfg : RateLimitConfig) (st : RateLimiterState)
    (req : RLRequest) (window_remaining_ms : Nat) :
    RateLimiterState × RateLimitDecision :=
  if withinBudget cfg st req then
    ({ st with used_requests := st.used_requests + 1,
               used_tokens := st.used_tokens + req.tokens }, .Proceed)
  else if cfg.queue_when_limited && st.queue.length < cfg.max_queue_size then
    ({ st with queue := st.queue ++ [req] }, .Queued)
  else
    (st, .RateLimited window_remaining_ms)

/-- Modelled from the spec: on a window reset the counters clear and the
wait queue is re-evaluated FIFO — up to `requests_per_min` queued requests
are admitted from the front.  Returns the new state and the admitted
requests. -/
def windowReset (cfg : RateLimitConfig) (st : RateLimiterState) :
    RateLimiterState × List RLRequest :=
  let admitted := st.queue.take cfg.requests_per_min
  ({ used_requests := admitted.length,
     used_tokens := (admitted.map RLRequest.tokens).sum,
     queue := st.queue.drop cfg.requests_per_min }, admitted)

/-- Iterate `n` window resets, accumulating every admitted request. -/
def resetsAdmitted (cfg : RateLimitConfig) :
    RateLimiterState → Nat → List RLRequest
  | _, 0 => []
  | st, n + 1 =>
    let (st', admitted) := windowReset cfg st
    admitted ++ resetsAdmitted cfg st' n

/-! ## Tool execution within one round (spec §4.4, tool execution loop) -/

/-- Completion events of a round's concurrent tool executions: each event
pairs the index of the request (its position in the model's requested
order) with the executed result.  `order` is the completion order, an
arbitrary permutation of the request indices; `exec` is the tool
executor. -/
def completionEvents (exec : ToolCall → String) (reqs : List ToolCall)
    (order : List Nat) : List (Nat × String) :=
  order.filterMap (fun i => (reqs.get? i).map (fun c => (i, exec c)))

/-- Modelled from the spec: the collector gathers the results and appends
them to history in the order the model requested them (by request index),
not completion order.  A missing result stays `none`. -/
def collectInRequestOrder (n : Nat) (events : List (Nat × String)) :
    List (Option String) :=
  (List.range n).map (fun i => (events.find? (fun e => e.1 = i)).map (·.2))

/-! ## Mailbox runtime (spec §4.1, mailbox serialization) -/

/-- Observable events of one actor's handler executions: a handler for the
message with sequence number `m` starts, or finishes. -/
inductive MEvent where
  | start (m : Nat)
  | finish (m : Nat)
deriving DecidableEq, Repr

/-- One actor's mailbox state: the queued messages (in send order) and the
handler currently running, if any. -/
structure MailboxState where
  queue : List Nat
  running : Option Nat
deriving DecidableEq, Repr

/-- Modelled from the spec: the mailbox runtime's small-step semantics.
The actor dequeues the next message and starts its handler only when no
handler is running, and finishes the running handler before any other
starts — "exactly one message at a time, start-to-finish".  Each step
extends the observable trace. -/
inductive MStep : MailboxState × List MEvent → MailboxState × List MEvent → Prop
  | start (m : Nat) (rest : List Nat) (tr : List MEvent) :
      MStep (⟨m :: rest, none⟩, tr) (⟨rest, some m⟩, tr ++ [.start m])
  | finish (q : List Nat) (m : Nat) (tr : List MEvent) :
      MStep (⟨q, some m⟩, tr) (⟨q, none⟩, tr ++ [.finish m])

/-- Reachability of the mailbox runtime from an initial queue of sent
messages with no handler running and an empty trace. -/
def MReachable (sent : List Nat) (c : MailboxState × List MEvent) : Prop :=
  Relation.ReflTransGen MStep (⟨sent, none⟩, []) c

/-- The serial trace of a fully processed message list: each handler's
start immediately followed by its finish. -/
def pairTrace : List Nat → List MEvent
  | [] => []
  | m :: ms => .start m :: .finish m :: pairTrace ms

/-- Checker for serial, non-overlapping handler execution: scanning the
trace, a handler may start only when none is running, and only the running
handler may finish. -/
def serialOk : Option Nat → List MEvent → Bool
  | _, [] => true
  | none, .start m :: rest => serialOk (some m) rest
  | none, .finish _ :: _ => false
  | some _, .start _ :: _ => false
  | some r, .finish m :: rest => m = r && serialOk none rest

/-- The messages whose handlers started, in trace order. -/
def startedMsgs (tr : List MEvent) : List Nat :=
  tr.filterMap (fun e => match e with | .start m => some m | _ => none)

/-! ## Path validation (spec §6 PathValidator; docs "Path validation and
security") -/

/-- A filesystem path, modelled as its list of components. -/
def FsPath : Type := List String
deriving instance DecidableEq, Repr for FsPath

/-- The three `PathValidationError` variants. -/
inductive PathValidationError where
  | CanonicalizeError (path : FsPath)
  | OutsideAllowedRoots (path : FsPath)
  | DeniedPattern (path : FsPath) (pattern : String)
deriving DecidableEq, Repr

/-- `PathValidator`: the allowed root directories and the denied
patterns. -/
structure PathValidator where
  allowed_roots : List FsPath
  denied_patterns : List String
deriving DecidableEq, Repr

/-- Modelled from the spec: `PathValidator::new()` — by default access is
allowed under the current working directory and the system temp directory,
and paths containing `..`, `.git` or `.env` are blocked. -/
def PathValidator.new (cwd tmp : FsPath) : PathValidator :=
  { allowed_roots := [cwd, tmp],
    denied_patterns := ["..", ".git", ".env"] }

/-- A canonical path is under a root when the root's components are an
initial segment of it. -/
def underRoot (root c : FsPath) : Bool :=
  decide (List.take (List.length root) c = root)

/-- A path contains a denied pattern when the pattern occurs among its
components. -/
def containsPattern (p : FsPath) (pat : String) : Bool :=
  List.contains p pat

/-- Modelled from the spec: `PathValidator::validate(path)`.  Denied
patterns are checked on the given path first (the docs' traversal test
rejects a non-existent `/some/../../../etc/passwd` with `DeniedPattern`);
then the path is canonicalized — resolving symlinks — through the
filesystem oracle `fs`; the canonical path must lie under one of the
allowed roots.  `fs` returns the symlink-resolved canonical path, or
`none` when the path cannot be resolved. -/
def PathValidator.validate (v : PathValidator) (fs : FsPath → Option FsPath)
    (path : FsPath) : Except PathValidationError FsPath :=
  match v.denied_patterns.find? (fun pat => containsPattern path pat) with
  | some pat => .error (.DeniedPattern path pat)
  | none =>
    match fs path with
    | none => .error (.CanonicalizeError path)
    | some c =>
      if v.allowed_roots.any (fun r => underRoot r c) then .ok c
      else .error (.OutsideAllowedRoots path)

/-- Recognizer for `ToolCallRequest` chunks of a client stream. -/
def ClientChunk.isToolCallReq : ClientChunk → Bool
  | .ToolCallRequest _ _ => true
  | _ => false

/-! ## Theorems -/

/-- Terminal tasks absorb every call: the call is a no-op returning
`false`. -/
theorem applyCall_of_terminal (t : DelegatedTask) (c : TaskCall)
    (h : t.state.is_terminal = true) : t.applyCall c = (t, false) := by
  rcases c with _ | r | r <;>
    simp only [DelegatedTask.applyCall, DelegatedTask.accept,
      DelegatedTask.complete, DelegatedTask.fail] <;>
    rcases ht : t.state with _ | _ | res | rea <;>
    simp [DelegatedTaskState.is_terminal, ht] at h ⊢

/-- A whole sequence of calls on a terminal task leaves it unchanged. -/
theorem applySeq_of_terminal (t : DelegatedTask)
    (h : t.state.is_terminal = true) : ∀ cs : List TaskCall, t.applySeq cs = t := by
  intro cs
  induction cs with
  | nil => rfl
  | cons c cs ih =>
    rw [DelegatedTask.applySeq, applyCall_of_terminal t c h]
    exact ih

/-- C7: for every `AgentState`, a prompt is accepted iff the state is
`Idle` or `Completed` (`can_accept_prompt` holds exactly there); `Stopping`
is the only terminal state and rejects all further transitions; and
`Thinking`, `Executing`, `Waiting` are exactly the mutually exclusive busy
states recognized by `is_active`. -/
theorem agent_state_invariants :
    ∀ (s : AgentState) (e : AgentEvent),
      (s.can_accept_prompt = true ↔ (s = .Idle ∨ s = .Completed)) ∧
      (s.is_terminal = true ↔ s = .Stopping) ∧
      (AgentState.Stopping.step e = none) ∧
      ((s.step .promptReceived).isSome = s.can_accept_prompt) ∧
      (s.is_active = true ↔ (s = .Thinking ∨ s = .Executing ∨ s = .Waiting)) := by
  intro s e
  cases s <;> cases e <;> decide

/-- C8: `cleanup_completed()` removes exactly the tracked tasks in a
terminal state (`Completed`/`Failed`); every `Pending`/`Accepted` task —
outgoing or incoming — remains in the tracker unchanged. -/
theorem cleanup_completed_spec :
    ∀ (tr : DelegationTracker) (t : DelegatedTask) (it : IncomingTask),
      (t ∈ tr.cleanup_completed.outgoing ↔
        t ∈ tr.outgoing ∧ t.state.is_terminal = false) ∧
      (it ∈ tr.cleanup_completed.incoming ↔
        it ∈ tr.incoming ∧ it.state.is_terminal = false) := by
  intro tr t it
  constructor <;>
    simp [DelegationTracker.cleanup_completed, List.mem_filter,
      Bool.not_eq_true']

/-- C2 counterexample: `complete()` succeeds directly on a `Pending` task,
moving it straight to `Completed` without ever passing through `Accepted`
(exactly what the repository's `track_and_complete_outgoing_task` test
exercises), so the transition chain `Pending → Accepted → {Completed|Failed}`
is not the only path. -/
theorem delegated_task_completes_from_pending :
    (DelegatedTask.new 1 2 "review").state = DelegatedTaskState.Pending ∧
    ((DelegatedTask.new 1 2 "review").complete "done").2 = true ∧
    ((DelegatedTask.new 1 2 "review").complete "done").1.state =
      DelegatedTaskState.Completed "done" ∧
    ((DelegatedTask.new 1 2 "review").complete "done").1.state ≠
      DelegatedTaskState.Accepted := by
  refine ⟨rfl, rfl, rfl, ?_⟩
  intro h
  cases h

/-- C2 (amended): every `accept()`/`complete()`/`fail()` call moves the
task state only forward along the order
`Pending < Accepted < {Completed|Failed}` — `accept()` only
`Pending → Accepted`, while `complete()`/`fail()` may take a non-terminal
task (including `Pending` directly) to a terminal state — and once the task
is terminal, any further call, or any sequence of calls, is a no-op
returning `false` that leaves the task and its recorded result
unchanged. -/
theorem delegated_task_monotone_terminal :
    ∀ (t : DelegatedTask) (c : TaskCall) (cs : List TaskCall),
      (t.state.rank ≤ ((t.applyCall c).1).state.rank) ∧
      ((t.applyCall c).1.state = t.state ∨
        (t.state = .Pending ∧ (t.applyCall c).1.state = .Accepted) ∨
        (t.state.is_terminal = false ∧
          ((t.applyCall c).1).state.is_terminal = true)) ∧
      (t.state.is_terminal = true → t.applyCall c = (t, false)) ∧
      (t.state.is_terminal = true → t.applySeq cs = t) := by
  intro t c cs
  refine ⟨?_, ?_, fun h => applyCall_of_terminal t c h,
    fun h => applySeq_of_terminal t h cs⟩ <;>
    rcases c with _ | r | r <;>
      simp only [DelegatedTask.applyCall, DelegatedTask.accept,
        DelegatedTask.complete, DelegatedTask.fail] <;>
      rcases ht : t.state with _ | _ | res | rea <;>
      simp [DelegatedTaskState.rank, DelegatedTaskState.is_terminal, ht]

/-- Witness for C2: a freshly completed task is terminal, and a further
`fail()` call followed by an `accept()` leaves it — result included —
unchanged. -/
theorem delegated_task_monotone_terminal_witness :
    (((DelegatedTask.new 1 2 "review").complete "done").1.state.is_terminal = true →
      ((DelegatedTask.new 1 2 "review").complete "done").1.applySeq
        [.failCall "late", .acceptCall] =
        ((DelegatedTask.new 1 2 "review").complete "done").1) ∧
    (((DelegatedTask.new 1 2 "review").complete "done").1.state.is_terminal = true) := by
  refine ⟨fun h => ?_, rfl⟩
  exact (delegated_task_monotone_terminal
    ((DelegatedTask.new 1 2 "review").complete "done").1
    (.acceptCall) [.failCall "late", .acceptCall]).2.2.2 h

/-- The round counter of the reasoning loop never exceeds the initial
count plus the remaining budget. -/
theorem collectGo_rounds_le (turns : Nat → ModelTurn) :
    ∀ (remaining start : Nat),
      (collectGo turns remaining start).rounds ≤ start + remaining := by
  intro remaining
  induction remaining with
  | zero =>
    intro start
    rw [collectGo]
    by_cases h : (turns start).stop = StopReason.ToolUse <;> simp [h]
  | succ r ih =>
    intro start
    rw [collectGo]
    by_cases h : (turns start).stop = StopReason.ToolUse
    · simp only [h, if_true]
      have := ih (start + 1)
      omega
    · simp [h]

/-- If the model requests tools on every turn, the loop exhausts its
budget and aborts with the "tool round limit exceeded" error. -/
theorem collectGo_all_toolUse (turns : Nat → ModelTurn)
    (h : ∀ i, (turns i).stop = StopReason.ToolUse) :
    ∀ (remaining start : Nat),
      collectGo turns remaining start =
        ⟨start + remaining, .error toolRoundLimitError⟩ := by
  intro remaining
  induction remaining with
  | zero =>
    intro start
    rw [collectGo]
    simp [h start]
  | succ r ih =>
    intro start
    rw [collectGo]
    simp only [h start, if_true]
    rw [ih (start + 1)]
    congr 1
    omega

/-- C1: for every reasoning loop run with a configured maximum number of
tool rounds, the round counter never exceeds the maximum, and a model that
keeps requesting tools always makes `collect()` terminate with the
"tool round limit exceeded" error rather than looping forever. -/
theorem tool_round_limit :
    ∀ (turns : Nat → ModelTurn) (max_tool_rounds : Nat),
      (collectLoop turns max_tool_rounds).rounds ≤ max_tool_rounds ∧
      ((∀ i, (turns i).stop = StopReason.ToolUse) →
        (collectLoop turns max_tool_rounds).outcome =
          .error toolRoundLimitError) := by
  intro turns max_tool_rounds
  constructor
  · have := collectGo_rounds_le turns max_tool_rounds 0
    simpa [collectLoop] using this
  · intro h
    rw [collectLoop, collectGo_all_toolUse turns h max_tool_rounds 0]

/-- Witness for C1: with the default maximum of 10 rounds and a model that
always answers `ToolUse`, the loop stays within 10 rounds and returns the
limit error. -/
theorem tool_round_limit_witness :
    (collectLoop (fun _ => ⟨"", [], .ToolUse⟩) defaultMaxToolRounds).rounds ≤
      defaultMaxToolRounds ∧
    (collectLoop (fun _ => ⟨"", [], .ToolUse⟩) defaultMaxToolRounds).outcome =
      .error toolRoundLimitError :=
  ⟨(tool_round_limit (fun _ => ⟨"", [], .ToolUse⟩) defaultMaxToolRounds).1,
   (tool_round_limit (fun _ => ⟨"", [], .ToolUse⟩) defaultMaxToolRounds).2
     (fun _ => rfl)⟩

/-- Shape of the translated stream body: some tokens/tool-call events, all
tagged with the correlation id, closed by the single `StreamEnd`. -/
theorem streamBody_shape (cid : Nat) (stop : StopReason) :
    ∀ body : List ClientChunk,
      ∃ mid, streamBody cid stop body = mid ++ [.StreamEnd cid stop] ∧
        ∀ e ∈ mid, e.isStart = false ∧ e.isEnd = false ∧ e.cid = cid := by
  intro body
  induction body with
  | nil => exact ⟨[], rfl, by simp⟩
  | cons ch rest ih =>
    obtain ⟨mid, hm, hprop⟩ := ih
    cases ch with
    | Token t =>
      refine ⟨.StreamToken cid t :: mid, by simp [streamBody, hm], ?_⟩
      intro e he
      rcases List.mem_cons.1 he with rfl | he
      · exact ⟨rfl, rfl, rfl⟩
      · exact hprop e he
    | ToolCallRequest n a =>
      refine ⟨.StreamToolCall cid n a :: mid, by simp [streamBody, hm], ?_⟩
      intro e he
      rcases List.mem_cons.1 he with rfl | he
      · exact ⟨rfl, rfl, rfl⟩
      · exact hprop e he

/-- Event counts of the translated stream body: no `StreamStart`, exactly
one `StreamEnd`, and one `StreamToolCall` per requested tool call. -/
theorem streamBody_counts (cid : Nat) (stop : StopReason) :
    ∀ body : List ClientChunk,
      (streamBody cid stop body).countP StreamEvent.isStart = 0 ∧
      (streamBody cid stop body).countP StreamEvent.isEnd = 1 ∧
      (streamBody cid stop body).countP StreamEvent.isToolCall =
        body.countP ClientChunk.isToolCallReq := by
  intro body
  induction body with
  | nil =>
    refine ⟨?_, ?_, ?_⟩ <;> simp [streamBody, List.countP_cons] <;> rfl
  | cons ch rest ih =>
    obtain ⟨h1, h2, h3⟩ := ih
    cases ch with
    | Token t =>
      refine ⟨?_, ?_, ?_⟩ <;>
        simp [streamBody, List.countP_cons, h1, h2, h3,
          StreamEvent.isStart, StreamEvent.isEnd, StreamEvent.isToolCall,
          ClientChunk.isToolCallReq]
    | ToolCallRequest n a =>
      refine ⟨?_, ?_, ?_⟩ <;>
        simp [streamBody, List.countP_cons, h1, h2, h3,
          StreamEvent.isStart, StreamEvent.isEnd, StreamEvent.isToolCall,
          ClientChunk.isToolCallReq]

/-- C3: for every submitted request, the published event sequence tagged
with its correlation id is exactly one `StreamStart`, then zero or more
token/tool-call events, then exactly one `StreamEnd(stop_reason)`; in
particular, when the client stream carries no tool-call chunks (no tools
registered), no `StreamToolCall` is published. -/
theorem stream_event_sequence :
    ∀ (cid : Nat) (body : List ClientChunk) (stop : StopReason),
      (∃ mid, streamTask cid body stop =
          .StreamStart cid :: (mid ++ [.StreamEnd cid stop]) ∧
          ∀ e ∈ mid, e.isStart = false ∧ e.isEnd = false ∧ e.cid = cid) ∧
      ((streamTask cid body stop).countP StreamEvent.isStart = 1) ∧
      ((streamTask cid body stop).countP StreamEvent.isEnd = 1) ∧
      (∀ e ∈ streamTask cid body stop, e.cid = cid) ∧
      (body.countP ClientChunk.isToolCallReq = 0 →
        (streamTask cid body stop).countP StreamEvent.isToolCall = 0) := by
  intro cid body stop
  obtain ⟨mid, hm, hprop⟩ := streamBody_shape cid stop body
  obtain ⟨h1, h2, h3⟩ := streamBody_counts cid stop body
  refine ⟨⟨mid, by rw [streamTask, hm], hprop⟩, ?_, ?_, ?_, ?_⟩
  · simp [streamTask, List.countP_cons, h1, StreamEvent.isStart]
  · simp [streamTask, List.countP_cons, h2, StreamEvent.isEnd]
  · intro e he
    rcases List.mem_cons.1 (by simpa [streamTask] using he) with rfl | he'
    · rfl
    · rw [hm] at he'
      rcases List.mem_append.1 he' with hmid | hend
      · exact (hprop e hmid).2.2
      · rcases List.mem_singleton.1 hend with rfl
        rfl
  · intro hz
    simp [streamTask, List.countP_cons, h3, hz, StreamEvent.isToolCall]

/-- Witness for C3: a stream of one token and no tool-call chunks ending in
`EndTurn` publishes one `StreamStart`, one `StreamEnd`, no
`StreamToolCall`, all tagged with correlation id 3. -/
theorem stream_event_sequence_witness :
    ((streamTask 3 [.Token "hi"] .EndTurn).countP StreamEvent.isStart = 1) ∧
    ((streamTask 3 [.Token "hi"] .EndTurn).countP StreamEvent.isEnd = 1) ∧
    ((streamTask 3 [.Token "hi"] .EndTurn).countP StreamEvent.isToolCall = 0) :=
  ⟨(stream_event_sequence 3 [.Token "hi"] .EndTurn).2.1,
   (stream_event_sequence 3 [.Token "hi"] .EndTurn).2.2.1,
   (stream_event_sequence 3 [.Token "hi"] .EndTurn).2.2.2.2 rfl⟩

/-- Flattened user/assistant pair lists have twice as many entries as
pairs. -/
theorem pairs_flatten_length :
    ∀ l : List (String × String),
      ((l.map (fun p => [ChatMessage.mk "user" p.1,
        ChatMessage.mk "assistant" p.2])).flatten).length = 2 * l.length := by
  intro l
  induction l with
  | nil => rfl
  | cons p ps ih =>
    simp only [List.map_cons, List.flatten_cons, List.length_append, ih,
      List.length_cons, List.length_nil]
    omega

/-- Processing a queue of `send()` calls appends, per call and in queue
order, exactly one user message followed by one assistant message. -/
theorem processSends_transcript (llm : List ChatMessage → String) :
    ∀ (cs : List String) (st : ConversationState),
      ∃ replies : List String, replies.length = cs.length ∧
        (processSends llm st cs).history =
          st.history ++ ((cs.zip replies).map
            (fun p => [ChatMessage.mk "user" p.1,
              ChatMessage.mk "assistant" p.2])).flatten := by
  intro cs
  induction cs with
  | nil => exact fun st => ⟨[], rfl, by simp [processSends]⟩
  | cons c cs ih =>
    intro st
    obtain ⟨rs, hlen, hh⟩ := ih (sendStep llm st c).1
    refine ⟨llm (st.history ++ [⟨"user", c⟩]) :: rs, by simp [hlen], ?_⟩
    rw [processSends, hh]
    simp [sendStep, List.zip_cons_cons, List.append_assoc]

/-- C4: starting from an empty history, performing `N` `send()` calls
yields exactly `2N` history entries — one user/assistant pair per call, in
insertion order (the queued calls are processed strictly one after another
by `processSends`). -/
theorem conversation_round_trip :
    ∀ (llm : List ChatMessage → String) (cs : List String),
      (processSends llm ⟨[]⟩ cs).history.length = 2 * cs.length ∧
      ∃ replies : List String, replies.length = cs.length ∧
        (processSends llm ⟨[]⟩ cs).history =
          ((cs.zip replies).map
            (fun p => [ChatMessage.mk "user" p.1,
              ChatMessage.mk "assistant" p.2])).flatten := by
  intro llm cs
  obtain ⟨rs, hlen, hh⟩ := processSends_transcript llm cs ⟨[]⟩
  have hnil : (ConversationState.mk []).history = [] := rfl
  constructor
  · rw [hh, hnil, List.nil_append, pairs_flatten_length]
    rw [List.length_zip, hlen, Nat.min_self]
  · exact ⟨rs, hlen, by rw [hh, hnil, List.nil_append]⟩

/-- Iterated window resets of the rate limiter admit the wait queue FIFO:
after `n` resets exactly the first `n * requests_per_min` queued requests
have been admitted. -/
theorem resetsAdmitted_eq_take (cfg : RateLimitConfig) :
    ∀ (n : Nat) (st : RateLimiterState),
      resetsAdmitted cfg st n = st.queue.take (n * cfg.requests_per_min) := by
  intro n
  induction n with
  | zero => intro st; simp [resetsAdmitted]
  | succ k ih =>
    intro st
    rw [resetsAdmitted]
    simp only [windowReset, ih]
    rw [Nat.succ_mul, Nat.add_comm (k * cfg.requests_per_min), List.take_add]

/-- C5: a request exceeding the rate limit fails immediately with a
rate-limit error carrying the (non-negative) retry-after duration when
queueing is disabled or the bounded wait queue is full; with queueing
enabled and room in the queue it is held FIFO and, provided the per-window
request budget is positive, is admitted after finitely many window
resets — it eventually proceeds rather than waiting forever. -/
theorem rate_limit_behavior :
    ∀ (cfg : RateLimitConfig) (st : RateLimiterState) (req : RLRequest)
      (w : Nat),
      (withinBudget cfg st req = false → cfg.queue_when_limited = false →
        rateLimitSubmit cfg st req w = (st, .RateLimited w) ∧ 0 ≤ w) ∧
      (withinBudget cfg st req = false →
        cfg.max_queue_size ≤ st.queue.length →
        rateLimitSubmit cfg st req w = (st, .RateLimited w) ∧ 0 ≤ w) ∧
      (withinBudget cfg st req = false → cfg.queue_when_limited = true →
        st.queue.length < cfg.max_queue_size →
        (rateLimitSubmit cfg st req w).2 = .Queued ∧
        (1 ≤ cfg.requests_per_min →
          ∃ n, req ∈ resetsAdmitted cfg (rateLimitSubmit cfg st req w).1 n)) := by
  intro cfg st req w
  refine ⟨?_, ?_, ?_⟩
  · intro hb hq
    simp [rateLimitSubmit, hb, hq]
  · intro hb hfull
    have hlt : ¬ st.queue.length < cfg.max_queue_size := by omega
    simp [rateLimitSubmit, hb, hlt]
  · intro hb hq hroom
    have hsub : rateLimitSubmit cfg st req w =
        ({ st with queue := st.queue ++ [req] }, .Queued) := by
      simp [rateLimitSubmit, hb, hq, hroom]
    refine ⟨by rw [hsub], ?_⟩
    intro hbudget
    refine ⟨st.queue.length + 1, ?_⟩
    rw [hsub, resetsAdmitted_eq_take]
    have hlen : (st.queue ++ [req]).length ≤
        (st.queue.length + 1) * cfg.requests_per_min := by
      have := Nat.le_mul_of_pos_right (st.queue.length + 1) hbudget
      simpa using this
    rw [List.take_of_length_le hlen]
    simp

/-- Witness for C5: with a one-request-per-window limiter whose window is
already used up, a submitted request is queued and admitted by the next
window reset; with queueing disabled the same request is rejected
immediately with the retry-after duration. -/
theorem rate_limit_behavior_witness :
    ((rateLimitSubmit ⟨1, 100, true, 5⟩ ⟨1, 0, []⟩ ⟨7, 0⟩ 250).2 =
        .Queued ∧
      ∃ n, (⟨7, 0⟩ : RLRequest) ∈ resetsAdmitted ⟨1, 100, true, 5⟩
        (rateLimitSubmit ⟨1, 100, true, 5⟩ ⟨1, 0, []⟩ ⟨7, 0⟩ 250).1 n) ∧
    (rateLimitSubmit ⟨1, 100, false, 5⟩ ⟨1, 0, []⟩ ⟨7, 0⟩ 250 =
      (⟨1, 0, []⟩, .RateLimited 250)) := by
  refine ⟨?_, ?_⟩
  · have h := (rate_limit_behavior ⟨1, 100, true, 5⟩ ⟨1, 0, []⟩ ⟨7, 0⟩ 250).2.2
      (by decide) rfl (by decide)
    exact ⟨h.1, h.2 (by decide)⟩
  · exact ((rate_limit_behavior ⟨1, 100, false, 5⟩ ⟨1, 0, []⟩ ⟨7, 0⟩ 250).1
      (by decide) rfl).1

/-- Every completion event carries the result of executing the request at
its own index: the value is determined by the index, whatever the
completion order. -/
theorem completionEvents_mem (exec : ToolCall → String) (reqs : List ToolCall)
    (order : List Nat) :
    ∀ e ∈ completionEvents exec reqs order,
      ∃ h : e.1 < reqs.length, e.2 = exec (reqs.get ⟨e.1, h⟩) := by
  intro e he
  obtain ⟨j, _, hf⟩ := List.mem_filterMap.1 he
  cases hg : reqs.get? j with
  | none => rw [hg] at hf; cases hf
  | some c =>
    rw [hg] at hf
    obtain ⟨hj, hc⟩ := List.get?_eq_some.1 hg
    cases hf
    exact ⟨hj, by rw [hc]⟩

/-- When the completion order is a permutation of the request indices, the
collector finds, for each request index, exactly the result of that
request. -/
theorem completionEvents_find (exec : ToolCall → String) (reqs : List ToolCall)
    (order : List Nat) (hperm : order.Perm (List.range reqs.length))
    (i : Nat) (hi : i < reqs.length) :
    (completionEvents exec reqs order).find? (fun e => e.1 = i) =
      some (i, exec (reqs.get ⟨i, hi⟩)) := by
  have hmem : (i, exec (reqs.get ⟨i, hi⟩)) ∈ completionEvents exec reqs order := by
    refine List.mem_filterMap.2 ⟨i, hperm.mem_iff.2 (List.mem_range.2 hi), ?_⟩
    rw [List.get?_eq_get hi]
    rfl
  have hsome : ((completionEvents exec reqs order).find?
      (fun e => e.1 = i)).isSome :=
    List.find?_isSome.2 ⟨_, hmem, by simp⟩
  obtain ⟨e, he⟩ := Option.isSome_iff_exists.1 hsome
  have hpe : e.1 = i := by simpa using List.find?_some he
  obtain ⟨hlt, hv⟩ :=
    completionEvents_mem exec reqs order e (List.mem_of_find?_eq_some he)
  rw [he]
  obtain ⟨e1, e2⟩ := e
  simp only at hpe hv
  subst hpe
  rw [hv]

/-- C6: whenever the model requests a list of tool calls and they complete
in an arbitrary order that covers every request (a permutation of the
request indices), the collected results appended to history are exactly the
executed results in the order the model requested them — not completion
order; and a round whose turn requests tools makes the loop resubmit once,
the round counter ending at exactly 1 when the next turn stops. -/
theorem tool_results_request_order :
    (∀ (exec : ToolCall → String) (reqs : List ToolCall) (order : List Nat),
      order.Perm (List.range reqs.length) →
      collectInRequestOrder reqs.length (completionEvents exec reqs order) =
        reqs.map (fun c => some (exec c))) ∧
    (∀ (turns : Nat → ModelTurn) (m : Nat), 1 ≤ m →
      (turns 0).stop = .ToolUse → ¬ (turns 1).stop = .ToolUse →
      collectLoop turns m = ⟨1, .ok (turns 1).text⟩) := by
  constructor
  · intro exec reqs order hperm
    apply List.ext_get
    · simp [collectInRequestOrder]
    · intro i h1 h2
      have hi : i < reqs.length := by
        simpa [collectInRequestOrder] using h1
      simp only [collectInRequestOrder, List.get_map, List.get_range,
        completionEvents_find exec reqs order hperm i hi]
      rfl
  · intro turns m hm h0 h1
    obtain ⟨k, rfl⟩ : ∃ k, m = k + 1 := ⟨m - 1, by omega⟩
    have hstep : collectLoop turns (k + 1) = collectGo turns k 1 := by
      rw [collectLoop, collectGo.eq_def]
      simp [h0]
    rw [hstep, collectGo.eq_def]
    simp [h1]

/-- Witness for C6: two tool calls completing in reversed order are still
collected in the requested order, and a loop whose first turn requests
tools and whose second stops ends with round counter exactly 1. -/
theorem tool_results_request_order_witness :
    (collectInRequestOrder 2
        (completionEvents ToolCall.name [⟨"a", "x"⟩, ⟨"b", "y"⟩] [1, 0]) =
      [some "a", some "b"]) ∧
    (collectLoop
        (fun i => if i = 0 then ⟨"", [⟨"a", "x"⟩, ⟨"b", "y"⟩], .ToolUse⟩
                  else ⟨"done", [], .EndTurn⟩) 10 =
      ⟨1, .ok "done"⟩) := by
  constructor
  · exact tool_results_request_order.1 ToolCall.name
      [⟨"a", "x"⟩, ⟨"b", "y"⟩] [1, 0] (by decide)
  · exact tool_results_request_order.2
      (fun i => if i = 0 then ⟨"", [⟨"a", "x"⟩, ⟨"b", "y"⟩], .ToolUse⟩
                else ⟨"done", [], .EndTurn⟩) 10
      (by omega) rfl (by decide)

/-- Appending one processed message extends the serial trace by its
start/finish pair. -/
theorem pairTrace_append :
    ∀ (l : List Nat) (m : Nat),
      pairTrace (l ++ [m]) = pairTrace l ++ [.start m, .finish m] := by
  intro l m
  induction l with
  | nil => rfl
  | cons x xs ih => simp [pairTrace, ih]

/-- The serial-execution checker ignores a fully serial prefix. -/
theorem serialOk_pairTrace_append :
    ∀ (l : List Nat) (rest : List MEvent),
      serialOk none (pairTrace l ++ rest) = serialOk none rest := by
  intro l rest
  induction l with
  | nil => rfl
  | cons x xs ih => simp [pairTrace, serialOk, ih]

/-- The started messages of a serial trace are exactly the processed
messages, in order. -/
theorem startedMsgs_pairTrace :
    ∀ l : List Nat, startedMsgs (pairTrace l) = l := by
  intro l
  induction l with
  | nil => rfl
  | cons x xs ih => simp [pairTrace, startedMsgs, List.filterMap_cons] at ih ⊢; exact ih

/-- Invariant of the mailbox runtime: every reachable configuration splits
the sent messages into a fully processed prefix (whose handlers ran
start-to-finish, recorded as the trace), optionally the message whose
handler is currently running, and the still-queued suffix. -/
theorem mreachable_inv (sent : List Nat) :
    ∀ c, MReachable sent c →
      ∃ done : List Nat,
        (c.1.running = none ∧ sent = done ++ c.1.queue ∧
          c.2 = pairTrace done) ∨
        (∃ m, c.1.running = some m ∧ sent = done ++ m :: c.1.queue ∧
          c.2 = pairTrace done ++ [.start m]) := by
  intro c h
  induction h with
  | refl => exact ⟨[], Or.inl ⟨rfl, rfl, rfl⟩⟩
  | tail hsteps hstep ih =>
    obtain ⟨done, hd⟩ := ih
    cases hstep with
    | start m rest tr =>
      rcases hd with ⟨_, hsent, htr⟩ | ⟨m', hrun, _, _⟩
      · have htr' : tr = pairTrace done := htr
        have hsent' : sent = done ++ m :: rest := hsent
        exact ⟨done, Or.inr ⟨m, rfl, hsent', by rw [htr']⟩⟩
      · exact absurd hrun (by simp)
    | finish q m tr =>
      rcases hd with ⟨hrun, _, _⟩ | ⟨m', hrun, hsent, htr⟩
      · exact absurd hrun (by simp)
      · have hm : m = m' := by
          have hsome : some m = some m' := hrun
          injection hsome
        subst hm
        have htr' : tr = pairTrace done ++ [.start m] := htr
        have hsent' : sent = done ++ m :: q := hsent
        refine ⟨done ++ [m], Or.inl ⟨rfl, ?_, ?_⟩⟩
        · simpa [List.append_assoc] using hsent'
        · simp [htr', pairTrace_append]

/-- C9: for every sequence of messages sent to one actor and every
reachable configuration of its mailbox runtime, the observed handler trace
is serial — each handler runs start-to-finish, no second handler starts
while one runs — and the handlers start in send order: the started
messages form an initial segment of the sent sequence. -/
theorem mailbox_serial_in_order :
    ∀ (sent : List Nat) (c : MailboxState × List MEvent),
      MReachable sent c →
      serialOk none c.2 = true ∧ ∃ rest, sent = startedMsgs c.2 ++ rest := by
  intro sent c h
  obtain ⟨done, hd⟩ := mreachable_inv sent c h
  rcases hd with ⟨_, hsent, htr⟩ | ⟨m, _, hsent, htr⟩
  · refine ⟨by rw [htr, ← List.append_nil (pairTrace done),
      serialOk_pairTrace_append]; rfl, ⟨c.1.queue, ?_⟩⟩
    rw [htr, startedMsgs_pairTrace]
    exact hsent
  · constructor
    · rw [htr, serialOk_pairTrace_append]
      rfl
    · refine ⟨c.1.queue, ?_⟩
      rw [htr, startedMsgs, List.filterMap_append]
      show sent = (startedMsgs (pairTrace done) ++ startedMsgs [.start m]) ++ _
      rw [startedMsgs_pairTrace]
      simpa [startedMsgs, List.append_assoc] using hsent

/-- Witness for C9: sending messages 5 then 9 and running the first
handler to completion yields the serial trace `[start 5, finish 5]`, whose
started messages `[5]` begin the send order `[5, 9]`. -/
theorem mailbox_serial_in_order_witness :
    serialOk none [.start 5, .finish 5] = true ∧
    ∃ rest, [5, 9] = startedMsgs [.start 5, .finish 5] ++ rest := by
  have h1 : MStep ((⟨[5, 9], none⟩ : MailboxState), ([] : List MEvent))
      ((⟨[9], some 5⟩ : MailboxState), [.start 5]) :=
    MStep.start 5 [9] []
  have h2 : MStep ((⟨[9], some 5⟩ : MailboxState), ([.start 5] : List MEvent))
      ((⟨[9], none⟩ : MailboxState), [.start 5, .finish 5]) :=
    MStep.finish [9] 5 [.start 5]
  exact mailbox_serial_in_order [5, 9] (⟨[9], none⟩, [.start 5, .finish 5])
    (Relation.ReflTransGen.head h1 (Relation.ReflTransGen.head h2 .refl))

/-- C10: `validate` returns `Ok` exactly with the symlink-resolved
canonical path, and exactly when the input contains no denied pattern (by
default `..`, `.git`, `.env`) and the canonical path lies under one of the
allowed roots (by default the working directory and the temp directory);
every rejection is one of the three `PathValidationError` variants, and a
symlink inside an allowed root that resolves outside it is rejected with
`OutsideAllowedRoots`. -/
theorem path_validator_claim :
    (∀ (v : PathValidator) (fs : FsPath → Option FsPath) (p c : FsPath),
        v.validate fs p = .ok c ↔
          (∀ pat ∈ v.denied_patterns, containsPattern p pat = false) ∧
          fs p = some c ∧ ∃ r ∈ v.allowed_roots, underRoot r c = true) ∧
    (∀ (v : PathValidator) (fs : FsPath → Option FsPath) (p : FsPath),
        (∃ c, v.validate fs p = .ok c) ∨
        (∃ pat, v.validate fs p = .error (.DeniedPattern p pat) ∧
          pat ∈ v.denied_patterns ∧ containsPattern p pat = true) ∨
        (v.validate fs p = .error (.CanonicalizeError p) ∧ fs p = none) ∨
        (v.validate fs p = .error (.OutsideAllowedRoots p))) ∧
    (∀ cwd tmp : FsPath,
        (PathValidator.new cwd tmp).allowed_roots = [cwd, tmp] ∧
        (PathValidator.new cwd tmp).denied_patterns = ["..", ".git", ".env"]) ∧
    ((PathValidator.new ["home", "user", "project"] ["tmp"]).validate
        (fun q => if q = ["home", "user", "project", "link.txt"]
                  then some ["etc", "passwd"] else none)
        ["home", "user", "project", "link.txt"] =
      .error (.OutsideAllowedRoots ["home", "user", "project", "link.txt"])) := by
  refine ⟨?_, ?_, fun cwd tmp => ⟨rfl, rfl⟩, rfl⟩
  · intro v fs p c
    unfold PathValidator.validate
    cases hf : v.denied_patterns.find? (fun pat => containsPattern p pat) with
    | some pat =>
      simp only
      constructor
      · intro h; cases h
      · rintro ⟨hden, -, -⟩
        have hmem := List.mem_of_find?_eq_some hf
        have hpat : containsPattern p pat = true := by
          simpa using List.find?_some hf
        rw [hden pat hmem] at hpat
        cases hpat
    | none =>
      have hden : ∀ pat ∈ v.denied_patterns, containsPattern p pat = false := by
        intro pat hm
        simpa using List.find?_eq_none.1 hf pat hm
      cases hfs : fs p with
      | none =>
        simp only
        constructor
        · intro h; cases h
        · rintro ⟨-, hc, -⟩
          exact absurd hc (by simp)
      | some c0 =>
        by_cases hin : v.allowed_roots.any (fun r => underRoot r c0) = true
        · simp only [hin, if_true]
          constructor
          · intro h
            have hc : c0 = c := by injection h
            subst hc
            exact ⟨hden, rfl, by simpa using List.any_eq_true.1 hin⟩
          · rintro ⟨-, hc, -⟩
            have hcc : c0 = c := by injection hc
            rw [hcc]
        · simp only [Bool.not_eq_true] at hin
          simp only [hin, Bool.false_eq_true, if_false]
          constructor
          · intro h; cases h
          · rintro ⟨-, hc, r, hr, hru⟩
            have hcc : c0 = c := by injection hc
            subst hcc
            have hany : v.allowed_roots.any (fun x => underRoot x c0) = true :=
              List.any_eq_true.2 ⟨r, hr, hru⟩
            rw [hin] at hany
            cases hany
  · intro v fs p
    unfold PathValidator.validate
    cases hf : v.denied_patterns.find? (fun pat => containsPattern p pat) with
    | some pat =>
      refine Or.inr (Or.inl ⟨pat, rfl, List.mem_of_find?_eq_some hf, ?_⟩)
      simpa using List.find?_some hf
    | none =>
      cases hfs : fs p with
      | none => exact Or.inr (Or.inr (Or.inl ⟨rfl, rfl⟩))
      | some c0 =>
        by_cases hin : v.allowed_roots.any (fun r => underRoot r c0) = true
        · exact Or.inl ⟨c0, by simp [hin]⟩
        · simp only [Bool.not_eq_true] at hin
          exact Or.inr (Or.inr (Or.inr (by simp [hin])))

end ActonAI
